import Mathlib

/-!
# Verification of the Primality Jones core (`src/lib.rs`)

This file gives a shallow embedding of the Mersenne-primality testing core of
the Primality Jones library and proves the specified properties of it.

Modelling conventions:

* `BigUint` values are embedded as `Nat`; `BigUint` subtraction panics on
  underflow, so the one fallible subtraction in the code
  (`squared - 2` in `square_and_subtract_two_mod_mp`) is embedded as an
  `Option`-valued function, `none` standing for the abort.  The abort
  propagates through `lucas_lehmer_test` and `check_mersenne_candidate`.
* The divisor bound `(n as f64).sqrt() as u64` of `is_prime` is embedded as
  `Nat.sqrt n`.  For `u64` inputs the rounding of the conversion `u64 → f64`
  and of the correctly rounded square root can move the truncated result at
  most one above or below `⌊√n⌋`, and never below a divisor of `n` that is
  `≤ ⌊√n⌋` (the error of the computed root is far below the distance from
  `√(d·e)` with `d ≤ ⌊√n⌋ ≤ e` down to the next integer), so the embedded
  function agrees with the source on every `u64` input.
* Wall-clock time and randomness in `miller_rabin_test` are embedded as
  oracles: `timeoutAt i` tells whether `start_time.elapsed() > timeout`
  when round `i` begins, and `bases i` is the random base drawn in round `i`.
  The progress-bar calls perform no computation and are dropped.
* The `u64` arithmetic of `check_small_factors` is embedded as unbounded
  `Nat`.  The source's products `2 * k * p` wrap (release) or panic
  (debug) once they reach `2^64`, and for `u64` primes `p > 2^63` the
  wrapped enumeration need not terminate, which a total model cannot
  represent; the general theorem about this function therefore carries the
  wrap-free hypothesis `limit + 2p ≤ 2^64`, under which every product the
  source evaluates stays below `2^64` and the embedding is exact (see the
  comment on `check_small_factors_loop`).  The pipeline's own call uses
  the fixed `limit = 1_000_000`, far inside this domain.
* Loops are embedded structurally with an explicit iteration budget (fuel)
  so that every definition evaluates by kernel reduction.  For `mod_mp` the
  budget of `1000` is the source's own `max_iterations` counter; for the
  other loops the budget is chosen (and proven) to dominate the source's
  loop guard, which is re-checked at every step, so the budget is never the
  reason a loop stops.
-/

namespace PrimalityJones

/-- Floor integer square root (the embedding of `(n as f64).sqrt() as u64`,
src/lib.rs:113; see the modelling notes above).  Structural so that it
evaluates by kernel reduction: starting from `0`, step up while the next
square still fits; the fuel `n` dominates the number of steps. -/
def isqrt_go (n : Nat) : Nat → Nat → Nat
  | 0, j => j
  | fuel + 1, j => if (j + 1) * (j + 1) ≤ n then isqrt_go n fuel (j + 1) else j

/-- Floor integer square root, entry point for `isqrt_go`. -/
def isqrt (n : Nat) : Nat := isqrt_go n n 0

/-- The `6k ± 1` wheel loop of `is_prime` (src/lib.rs:114-120):
`while i <= sqrt_n { if n % i == 0 || n % (i + 2) == 0 { return false }; i += 6 }`.
The first argument is the iteration budget; `is_prime` passes `sqrt_n + 1`,
which is at least the number of iterations of the source loop. -/
def is_prime_loop (n sqrt_n : Nat) : Nat → Nat → Bool
  | 0, _ => true
  | fuel + 1, i =>
    if i ≤ sqrt_n then
      if n % i = 0 || n % (i + 2) = 0 then false
      else is_prime_loop n sqrt_n fuel (i + 6)
    else true

/-- Trial-division primality test of src/lib.rs:102-122 (`is_prime`). -/
def is_prime (n : Nat) : Bool :=
  if n ≤ 1 then false
  else if n ≤ 3 then true
  else if n % 2 = 0 || n % 3 = 0 then false
  else is_prime_loop n (isqrt n) (isqrt n + 1) 5

/-- The bit-splitting loop of `mod_mp` (src/lib.rs:171-179):
`while result > mp && iterations < max_iterations { result = (result >> p) + (result & mp) }`.
The fuel is the remaining iteration allowance `max_iterations - iterations`
(the source counts `iterations` up from `0` to `max_iterations = 1000`);
the returned pair is the final value together with the remaining allowance,
so the source's post-loop test `iterations >= max_iterations` is `r.2 = 0`. -/
def mod_mp_loop (p mp : Nat) : Nat → Nat → Nat × Nat
  | 0, result => (result, 0)
  | fuel + 1, result =>
    if mp < result then mod_mp_loop p mp fuel ((result >>> p) + (result &&& mp))
    else (result, fuel + 1)

/-- Optimized modulo for Mersenne numbers, src/lib.rs:152-192 (`mod_mp`). -/
def mod_mp (k : Nat) (p : Nat) : Nat :=
  let mp := (1 <<< p) - 1
  if k = 0 then 0
  else if k = mp then 0
  else if k < mp then k
  else
    let r := mod_mp_loop p mp 1000 k
    if r.2 = 0 then k % mp
    else if r.1 = mp then 0
    else r.1

/-- The Lucas-Lehmer step, src/lib.rs:207-211 (`square_and_subtract_two_mod_mp`).
The source computes `s * s - 2` with `BigUint` subtraction, which panics when
`s * s < 2` (that is, for `s ∈ {0, 1}`); the panic is embedded as `none`. -/
def square_and_subtract_two_mod_mp (s : Nat) (p : Nat) : Option Nat :=
  let squared := s * s
  if squared < 2 then none
  else some (mod_mp (squared - 2) p)

/-- `n` iterations of the Lucas-Lehmer recurrence starting from `s`
(the `for` loop of src/lib.rs:475-477), propagating the abort. -/
def ll_steps (p : Nat) : Nat → Nat → Option Nat
  | 0, s => some s
  | n + 1, s =>
    match square_and_subtract_two_mod_mp s p with
    | none => none
    | some t => ll_steps p n t

/-- Lucas-Lehmer test, src/lib.rs:467-481 (`lucas_lehmer_test`):
for `p < 2` return `false`; otherwise start at `s = 4`, apply the step
exactly `p - 2` times and compare the final value with `0`. -/
def lucas_lehmer_test (p : Nat) : Option Bool :=
  if p < 2 then some false
  else (ll_steps p (p - 2) 4).map (fun s => s == 0)

/-- The `while d % 2 == 0 { s += 1; d /= 2 }` loop of src/lib.rs:249-254,
returning `(s, d)`.  The fuel (first argument) dominates the number of
halvings for every `d ≥ 1`; `miller_rabin_test` passes `m - 1` itself. -/
def factor_out_twos : Nat → Nat → Nat × Nat
  | 0, d => (0, d)
  | fuel + 1, d =>
    if d % 2 = 0 then
      let r := factor_out_twos fuel (d / 2)
      (r.1 + 1, r.2)
    else (0, d)

/-- The inner squaring loop of Miller-Rabin (src/lib.rs:283-297), run
`s - 1` times: the source mutates `x = x.modpow(2, m)` each iteration, so
the recursion continues on the squared value `y`.  Returns `true` when the
round passes (`x` reached `m - 1`) and `false` when the whole test must
return `false` (either a non-trivial square root of `1` was found or `a`
is a witness). -/
def mr_squarings (m m1 : Nat) : Nat → Nat → Bool
  | 0, _ => false
  | r + 1, x =>
    let y := x ^ 2 % m
    if y = m1 then true
    else if y = 1 then false
    else mr_squarings m m1 r y

/-- The round loop of Miller-Rabin (src/lib.rs:263-306).  `i` is the round
index (used by the oracles), the last argument the number of remaining
rounds.  Each round first consults the timeout oracle and returns `false`
on timeout, exactly as the source returns `false` when
`start_time.elapsed() > timeout`. -/
def miller_rabin_loop (m m1 d s : Nat) (bases : Nat → Nat) (timeoutAt : Nat → Bool) :
    Nat → Nat → Bool
  | _, 0 => true
  | i, rounds + 1 =>
    if timeoutAt i then false
    else
      let a := bases i
      let x := a ^ d % m
      if x = 1 || x = m1 then miller_rabin_loop m m1 d s bases timeoutAt (i + 1) rounds
      else if mr_squarings m m1 (s - 1) x then
        miller_rabin_loop m m1 d s bases timeoutAt (i + 1) rounds
      else false

/-- Miller-Rabin test over `M_p`, src/lib.rs:243-310 (`miller_rabin_test`),
with time and randomness supplied by oracles. -/
def miller_rabin_test (p : Nat) (k : Nat) (bases : Nat → Nat) (timeoutAt : Nat → Bool) : Bool :=
  let m := (1 <<< p) - 1
  let m1 := m - 1
  let sd := factor_out_twos m1 m1
  miller_rabin_loop m m1 sd.2 sd.1 bases timeoutAt 0 k

/-- The candidate loop of `check_small_factors` (src/lib.rs:423-439):
`k = 1, 2, ...` while `2 * k * p < limit`.  The fuel `limit` dominates the
number of iterations for every `p ≥ 1` (and the function is only entered
with `p` prime), since `2 * k * p < limit` forces `k < limit`.

The source computes the products `2 * k * p` in `u64`, which wraps in
release builds (and panics in debug builds) once a product reaches `2^64`;
this model computes them in `Nat`.  The two agree exactly on the wrap-free
domain: while the source loop runs, every evaluated product is `< limit`,
and the first product at or past the exit bound is `< limit + 2p`, so
whenever `limit + 2p ≤ 2^64` no computed `u64` value ever wraps and the
model reproduces the source step for step.  The general theorem about this
function (`check_small_factors_eq_amended`) carries exactly that bound as
its hypothesis; past it the source's enumeration wraps and, for `u64`
primes `p > 2^63`, need not terminate at all, which a total model cannot
represent. -/
def check_small_factors_loop (p limit : Nat) : Nat → Nat → Option Nat
  | 0, _ => none
  | fuel + 1, k =>
    if 2 * k * p < limit then
      let q := 2 * k * p + 1
      if (q % 8 == 1 || q % 8 == 7) && is_prime q then
        if 2 ^ p % q = 1 then
          if q ≠ (1 <<< p) - 1 then some q
          else check_small_factors_loop p limit fuel (k + 1)
        else check_small_factors_loop p limit fuel (k + 1)
      else check_small_factors_loop p limit fuel (k + 1)
    else none

/-- Small-factor search, src/lib.rs:416-441 (`check_small_factors`). -/
def check_small_factors (p limit : Nat) : Option Nat :=
  if !is_prime p then none
  else check_small_factors_loop p limit limit 1

/-- Result of one pipeline stage, src/lib.rs:43-50 (`CheckResult`); the
`time_taken` duration is dropped (wall-clock time is not modelled). -/
structure CheckResult where
  passed : Bool
  message : String
deriving DecidableEq

/-- Thoroughness levels, src/lib.rs:54-63 (`CheckLevel`), in canonical order. -/
inductive CheckLevel
  | PreScreen
  | TrialFactoring
  | Probabilistic
  | LucasLehmer
deriving DecidableEq

/-- The staged pipeline, src/lib.rs:340-413 (`check_mersenne_candidate`).
The Miller-Rabin stage receives the time and randomness oracles; the source
runs it with `k = 5` rounds and a 5-minute timeout measured from the start
of the whole call, both absorbed by the oracles.  A `BigUint` panic inside
the Lucas-Lehmer stage is propagated as `none`. -/
def check_mersenne_candidate (p : Nat) (level : CheckLevel)
    (bases : Nat → Nat) (timeoutAt : Nat → Bool) : Option (List CheckResult) :=
  let prime_passed := is_prime p
  let r1 : CheckResult :=
    ⟨prime_passed, if prime_passed then "Exponent is prime" else "Exponent is not prime"⟩
  if !prime_passed || level == CheckLevel.PreScreen then some [r1]
  else
    match check_small_factors p 1000000 with
    | some factor => some [r1, ⟨false, "Found small factor: " ++ toString factor⟩]
    | none =>
      let r2 : CheckResult := ⟨true, "No small factors found up to 1M"⟩
      if level == CheckLevel.TrialFactoring then some [r1, r2]
      else
        let mr := miller_rabin_test p 5 bases timeoutAt
        let r3 : CheckResult :=
          ⟨mr, if mr then "Passed Miller-Rabin test" else "Failed Miller-Rabin test"⟩
        if !mr || level == CheckLevel.Probabilistic then some [r1, r2, r3]
        else
          match lucas_lehmer_test p with
          | none => none
          | some ll =>
            some [r1, r2, r3,
              ⟨ll, if ll then "Passed Lucas-Lehmer test (definitive)"
                   else "Failed Lucas-Lehmer test (definitive)"⟩]

/-- Modelled from the spec: the acceptance test for a candidate factor
`q` of `M_p` ("accept only if `q ≡ 1 (mod 8)` or `q ≡ 7 (mod 8)` AND `q`
itself passes `exponent_is_prime`-style primality; then test ... `2^p ≡ 1
(mod q)`; exclude the degenerate case where `q` equals `M_p` itself"). -/
def qualifies (p q : Nat) : Bool :=
  (q % 8 == 1 || q % 8 == 7) && is_prime q && (2 ^ p % q == 1) && (q != 2 ^ p - 1)

/-- Modelled from the spec, with the enumeration bound exactly as the claim
states it: enumerate `k = 1, 2, ...` while `2kp + 1 < limit` and return the
first qualifying candidate `q = 2kp + 1`. -/
def find_small_factor_claimed (p limit : Nat) : Option Nat :=
  if is_prime p then
    (((List.range limit).filter fun k =>
        decide (1 ≤ k) && (decide (2 * k * p + 1 < limit) && qualifies p (2 * k * p + 1))).head?).map
      fun k => 2 * k * p + 1
  else none

/-- Modelled from the spec with the enumeration bound corrected to the one
the source uses: enumerate `k = 1, 2, ...` while `2kp < limit` (that is,
candidates `q = 2kp + 1 ≤ limit`) and return the first qualifying one. -/
def find_small_factor_amended (p limit : Nat) : Option Nat :=
  if is_prime p then
    (((List.range limit).filter fun k =>
        decide (1 ≤ k) && (decide (2 * k * p < limit) && qualifies p (2 * k * p + 1))).head?).map
      fun k => 2 * k * p + 1
  else none

/-! ## Correctness of `mod_mp` -/

/-- One iteration of the bit-splitting loop preserves the value modulo
`2 ^ p - 1`, because `2 ^ p ≡ 1 (mod 2 ^ p - 1)`. -/
lemma mod_mp_step_mod (p : Nat) (r : Nat) :
    ((r >>> p) + (r &&& (2 ^ p - 1))) % (2 ^ p - 1) = r % (2 ^ p - 1) := by
  rw [Nat.shiftRight_eq_div_pow, Nat.and_pow_two_sub_one_eq_mod]
  have hone : (1 : Nat) ≤ 2 ^ p := Nat.one_le_two_pow
  have hcong : (2 : Nat) ^ p ≡ 1 [MOD 2 ^ p - 1] :=
    ((Nat.modEq_iff_dvd' hone).mpr (dvd_refl _)).symm
  calc (r / 2 ^ p + r % 2 ^ p) % (2 ^ p - 1)
      = (1 * (r / 2 ^ p) + r % 2 ^ p) % (2 ^ p - 1) := by rw [one_mul]
    _ = (2 ^ p * (r / 2 ^ p) + r % 2 ^ p) % (2 ^ p - 1) :=
        Nat.ModEq.add_right _ (Nat.ModEq.mul_right _ hcong.symm)
    _ = r % (2 ^ p - 1) := by rw [Nat.div_add_mod]

/-- The bit-splitting loop preserves the value modulo `2 ^ p - 1`, and if it
stopped with fuel remaining (that is, because the loop guard failed) then
the final value is at most `2 ^ p - 1`. -/
lemma mod_mp_loop_spec (p : Nat) :
    ∀ fuel r, (mod_mp_loop p (2 ^ p - 1) fuel r).1 % (2 ^ p - 1) = r % (2 ^ p - 1) ∧
      ((mod_mp_loop p (2 ^ p - 1) fuel r).2 ≠ 0 →
        (mod_mp_loop p (2 ^ p - 1) fuel r).1 ≤ 2 ^ p - 1) := by
  intro fuel
  induction fuel with
  | zero => intro r; exact ⟨rfl, fun h => absurd rfl h⟩
  | succ fuel ih =>
    intro r
    by_cases hgt : 2 ^ p - 1 < r
    · have heq : mod_mp_loop p (2 ^ p - 1) (fuel + 1) r
          = mod_mp_loop p (2 ^ p - 1) fuel ((r >>> p) + (r &&& (2 ^ p - 1))) := by
        simp [mod_mp_loop, hgt]
      rw [heq]
      refine ⟨?_, (ih _).2⟩
      rw [(ih _).1, mod_mp_step_mod]
    · have heq : mod_mp_loop p (2 ^ p - 1) (fuel + 1) r = (r, fuel + 1) := by
        simp [mod_mp_loop, hgt]
      rw [heq]
      exact ⟨rfl, fun _ => Nat.le_of_not_lt hgt⟩

/-- `mod_mp k p` computes exactly `k % (2 ^ p - 1)`, on every path
(early returns, bit-splitting loop, and generic-remainder fallback). -/
theorem mod_mp_eq_mod (k p : Nat) (hp : 1 ≤ p) : mod_mp k p = k % (2 ^ p - 1) := by
  have hmpos : 0 < 2 ^ p - 1 := by
    have : (2 : Nat) ^ 1 ≤ 2 ^ p := Nat.pow_le_pow_right (by omega) hp
    omega
  unfold mod_mp
  simp only [Nat.one_shiftLeft]
  by_cases hk0 : k = 0
  · simp [hk0]
  · by_cases hkm : k = 2 ^ p - 1
    · simp [hk0, hkm, Nat.mod_self]
    · by_cases hklt : k < 2 ^ p - 1
      · simp only [if_neg hk0, if_neg hkm, if_pos hklt]
        rw [Nat.mod_eq_of_lt hklt]
      · simp only [if_neg hk0, if_neg hkm, if_neg hklt]
        obtain ⟨hmod, hle⟩ := mod_mp_loop_spec p 1000 k
        by_cases hfuel : (mod_mp_loop p (2 ^ p - 1) 1000 k).2 = 0
        · simp [hfuel]
        · simp only [if_neg hfuel]
          have hle' := hle hfuel
          by_cases hres : (mod_mp_loop p (2 ^ p - 1) 1000 k).1 = 2 ^ p - 1
          · simp only [if_pos hres]
            rw [← hmod, hres, Nat.mod_self]
          · simp only [if_neg hres]
            have hlt : (mod_mp_loop p (2 ^ p - 1) 1000 k).1 < 2 ^ p - 1 := by
              omega
            rw [← hmod, Nat.mod_eq_of_lt hlt]

/-- C1: for every `k` and every `p ≥ 1`, `mod_mp k p` equals
`k mod (2^p - 1)` exactly — hence it is the canonical representative:
congruent to `k`, and strictly below `2^p - 1`.  The edge cases `k = 0`,
`k = 2^p - 1` (result `0`) and `k < 2^p - 1` (returned unchanged) are
instances, and the equality holds whether the bit-splitting loop finishes
or the generic-remainder fallback is taken. -/
theorem mod_mp_reduces (k p : Nat) (hp : 1 ≤ p) :
    mod_mp k p = k % (2 ^ p - 1) ∧ mod_mp k p < 2 ^ p - 1 := by
  have heq := mod_mp_eq_mod k p hp
  have hmpos : 0 < 2 ^ p - 1 := by
    have : (2 : Nat) ^ 1 ≤ 2 ^ p := Nat.pow_le_pow_right (by omega) hp
    omega
  exact ⟨heq, heq ▸ Nat.mod_lt _ hmpos⟩

/-- Witness for `mod_mp_reduces` at the spec's own test point
`reduce(200, 7) = 73`. -/
theorem mod_mp_reduces_witness :
    1 ≤ 7 ∧ (mod_mp 200 7 = 200 % (2 ^ 7 - 1) ∧ mod_mp 200 7 < 2 ^ 7 - 1) :=
  ⟨by decide, mod_mp_reduces 200 7 (by decide)⟩

/-- C8: `mod_mp` is idempotent for every `k` and every `p ≥ 1`. -/
theorem mod_mp_idempotent (k p : Nat) (hp : 1 ≤ p) :
    mod_mp (mod_mp k p) p = mod_mp k p := by
  rw [mod_mp_eq_mod _ _ hp, mod_mp_eq_mod _ _ hp, Nat.mod_mod_of_dvd _ (dvd_refl _)]

/-- Witness for `mod_mp_idempotent` at `k = 200`, `p = 7`. -/
theorem mod_mp_idempotent_witness :
    1 ≤ 7 ∧ mod_mp (mod_mp 200 7) 7 = mod_mp 200 7 :=
  ⟨by decide, mod_mp_idempotent 200 7 (by decide)⟩

/-! ## The Lucas-Lehmer step underflows at `s ∈ {0, 1}` (C3) -/

/-- C3 (bug): `square_and_subtract_two_mod_mp` computes `s * s - 2` with a
plain `BigUint` subtraction and no underflow guard, so for `s = 0` and
`s = 1` (the only values with `s * s < 2`) the call aborts instead of
producing `(s² - 2) mod (2^p - 1)` as the spec requires. -/
theorem square_and_subtract_two_underflows :
    square_and_subtract_two_mod_mp 0 3 = none ∧ square_and_subtract_two_mod_mp 1 3 = none := by
  exact ⟨by decide, by decide⟩

/-! ## Lucas-Lehmer at `p = 2` (C9) -/

/-- C9: with `p - 2 = 0` iterations, `s` stays `4 ≠ 0`, so
`lucas_lehmer_test 2` reports `M₂ = 3` as composite although `3` is prime. -/
theorem lucas_lehmer_test_at_two :
    lucas_lehmer_test 2 = some false ∧ Nat.Prime (2 ^ 2 - 1) :=
  ⟨by decide, by norm_num⟩

/-! ## Correctness of `is_prime` (C5) -/

/-- `isqrt_go` computes the floor square root, provided the fuel dominates
the remaining distance. -/
lemma isqrt_go_spec (n : Nat) :
    ∀ fuel j, j * j ≤ n → n ≤ fuel + j →
      isqrt_go n fuel j * isqrt_go n fuel j ≤ n ∧
        n < (isqrt_go n fuel j + 1) * (isqrt_go n fuel j + 1) := by
  intro fuel
  induction fuel with
  | zero =>
    intro j h1 h2
    simp only [isqrt_go]
    exact ⟨h1, by nlinarith⟩
  | succ fuel ih =>
    intro j h1 h2
    by_cases hstep : (j + 1) * (j + 1) ≤ n
    · have heq : isqrt_go n (fuel + 1) j = isqrt_go n fuel (j + 1) := by
        simp [isqrt_go, hstep]
      rw [heq]
      exact ih (j + 1) hstep (by omega)
    · have heq : isqrt_go n (fuel + 1) j = j := by
        simp [isqrt_go, hstep]
      rw [heq]
      exact ⟨h1, Nat.lt_of_not_le hstep⟩

/-- `isqrt` agrees with Mathlib's `Nat.sqrt`. -/
lemma isqrt_eq_sqrt (n : Nat) : isqrt n = Nat.sqrt n := by
  obtain ⟨h1, h2⟩ := isqrt_go_spec n n 0 (by simp) (by omega)
  unfold isqrt
  exact (Nat.eq_sqrt.mpr ⟨h1, h2⟩)

/-- If no `j` with `5 ≤ j ≤ s + 2` divides `n`, the wheel loop returns
`true` (it can only return `false` by finding a divisor). -/
lemma is_prime_loop_true_of_no_dvd (n s : Nat) :
    ∀ fuel i, 5 ≤ i → (∀ j, 5 ≤ j → j ≤ s + 2 → n % j ≠ 0) →
      is_prime_loop n s fuel i = true := by
  intro fuel
  induction fuel with
  | zero => intro i _ _; rfl
  | succ fuel ih =>
    intro i hi hnd
    by_cases hle : i ≤ s
    · have h1 : n % i ≠ 0 := hnd i hi (by omega)
      have h2 : n % (i + 2) ≠ 0 := hnd (i + 2) (by omega) (by omega)
      rw [is_prime_loop, if_pos hle, if_neg (by simp [h1, h2])]
      exact ih (i + 6) (by omega) hnd
    · simp [is_prime_loop, hle]

/-- If the wheel loop returns `true` with enough fuel to scan up to the
bound `s`, then no wheel value (`≡ 5 (mod 6)` up to `s`, or `≡ 1 (mod 6)`
up to `s + 2`) at or beyond the current index divides `n`. -/
lemma is_prime_loop_true_no_dvd (n s : Nat) :
    ∀ fuel i, s < i + 6 * fuel → i % 6 = 5 →
      is_prime_loop n s fuel i = true →
      ∀ j, i ≤ j → j ≤ s + 2 →
        (j % 6 = 5 ∧ j ≤ s) ∨ (j % 6 = 1 ∧ i + 2 ≤ j) →
        n % j ≠ 0 := by
  intro fuel
  induction fuel with
  | zero =>
    intro i hfuel hi _ j hij hjs hcase
    rcases hcase with ⟨_, hj⟩ | ⟨_, hj⟩ <;> omega
  | succ fuel ih =>
    intro i hfuel hi hloop j hij hjs hcase
    by_cases hle : i ≤ s
    · rw [is_prime_loop, if_pos hle] at hloop
      by_cases hdiv : n % i = 0 || n % (i + 2) = 0
      · rw [if_pos hdiv] at hloop; exact absurd hloop (by simp)
      · rw [if_neg hdiv] at hloop
        have hni : n % i ≠ 0 := by
          intro h; exact hdiv (by simp [h])
        have hni2 : n % (i + 2) ≠ 0 := by
          intro h; exact hdiv (by simp [h])
        by_cases hji : j = i
        · rw [hji]; exact hni
        · by_cases hji2 : j = i + 2
          · rw [hji2]; exact hni2
          · refine ih (i + 6) (by omega) (by omega) hloop j ?_ hjs ?_
            · rcases hcase with ⟨hm, _⟩ | ⟨hm, hge⟩ <;> omega
            · rcases hcase with ⟨hm, hj⟩ | ⟨hm, hge⟩
              · exact Or.inl ⟨hm, hj⟩
              · exact Or.inr ⟨hm, by omega⟩
    · rcases hcase with ⟨_, hj⟩ | ⟨_, hj⟩ <;> omega

/-- For `n ≥ 5`, `√n + 2 < n`, so every divisor `≤ Nat.sqrt n + 2` found by
the wheel is a proper divisor. -/
lemma sqrt_add_two_lt (n : Nat) (hn : 5 ≤ n) : Nat.sqrt n + 2 < n := by
  have h1 : Nat.sqrt n * Nat.sqrt n ≤ n := Nat.sqrt_le n
  have h2 : n < (Nat.sqrt n + 1) * (Nat.sqrt n + 1) := Nat.lt_succ_sqrt n
  by_cases ha : 3 ≤ Nat.sqrt n
  · have : 3 * Nat.sqrt n ≤ Nat.sqrt n * Nat.sqrt n := Nat.mul_le_mul_right _ ha
    omega
  · have : (Nat.sqrt n + 1) * (Nat.sqrt n + 1) ≤ 3 * 3 := by
      apply Nat.mul_le_mul <;> omega
    omega

/-- C5: for every `n`, `is_prime n` returns `true` iff `n` is prime; in
particular it returns `false` for `n < 2` and for every composite `n`,
searching divisors only up to `⌊√n⌋` (plus the wheel's `+2` overhang). -/
theorem is_prime_iff_prime (n : Nat) : is_prime n = true ↔ Nat.Prime n := by
  unfold is_prime
  by_cases h1 : n ≤ 1
  · simp only [if_pos h1]
    constructor
    · intro h; exact absurd h (by simp)
    · intro h; exact absurd h (by interval_cases n <;> norm_num)
  · by_cases h3 : n ≤ 3
    · simp only [if_neg h1, if_pos h3]
      constructor
      · intro _
        interval_cases n
        · exact Nat.prime_two
        · exact Nat.prime_three
      · intro _; trivial
    · have h4 : 4 ≤ n := by omega
      by_cases h23 : n % 2 = 0 || n % 3 = 0
      · simp only [if_neg h1, if_neg h3, if_pos h23]
        constructor
        · intro h; exact absurd h (by simp)
        · intro hp
          rcases (by simpa using h23 : n % 2 = 0 ∨ n % 3 = 0) with h | h
          · rcases (hp.eq_one_or_self_of_dvd 2 (Nat.dvd_of_mod_eq_zero h)) with h' | h' <;> omega
          · rcases (hp.eq_one_or_self_of_dvd 3 (Nat.dvd_of_mod_eq_zero h)) with h' | h' <;> omega
      · simp only [if_neg h1, if_neg h3, if_neg h23]
        have hn2 : n % 2 ≠ 0 := by
          intro h; exact h23 (by simp [h])
        have hn3 : n % 3 ≠ 0 := by
          intro h; exact h23 (by simp [h])
        have h5 : 5 ≤ n := by omega
        rw [isqrt_eq_sqrt]
        constructor
        · intro hloop
          rw [Nat.prime_def_le_sqrt]
          refine ⟨by omega, ?_⟩
          intro m hm2 hmsq hmdvd
          obtain ⟨q, hqp, hqdvd⟩ := Nat.exists_prime_and_dvd (by omega : m ≠ 1)
          have hqn : q ∣ n := hqdvd.trans hmdvd
          have hqle : q ≤ m := Nat.le_of_dvd (by omega) hqdvd
          have hqmod : n % q = 0 := Nat.mod_eq_zero_of_dvd hqn
          have hq2 : q % 2 = 1 := by
            rcases Nat.mod_two_eq_zero_or_one q with h | h
            · have : (2 : Nat) ∣ q := Nat.dvd_of_mod_eq_zero h
              rcases (hqp.eq_one_or_self_of_dvd 2 this) with h' | h'
              · omega
              · rw [← h'] at hqn
                exact absurd (Nat.mod_eq_zero_of_dvd hqn) hn2
            · exact h
          have hq3 : q % 3 ≠ 0 := by
            intro h
            have : (3 : Nat) ∣ q := Nat.dvd_of_mod_eq_zero h
            rcases (hqp.eq_one_or_self_of_dvd 3 this) with h' | h'
            · omega
            · rw [← h'] at hqn
              exact absurd (Nat.mod_eq_zero_of_dvd hqn) hn3
          have hq5 : 5 ≤ q := by
            have := hqp.two_le
            omega
          have hq6 : q % 6 = 1 ∨ q % 6 = 5 := by omega
          refine is_prime_loop_true_no_dvd n (Nat.sqrt n) (Nat.sqrt n + 1) 5
            (by omega) (by norm_num) hloop q (by omega) (by omega) ?_ hqmod
          rcases hq6 with h | h
          · exact Or.inr ⟨h, by omega⟩
          · exact Or.inl ⟨h, by omega⟩
        · intro hp
          apply is_prime_loop_true_of_no_dvd n (Nat.sqrt n) _ 5 (by omega)
          intro j hj5 hjle hjmod
          have hjdvd : j ∣ n := Nat.dvd_of_mod_eq_zero hjmod
          rcases hp.eq_one_or_self_of_dvd j hjdvd with h | h
          · omega
          · have := sqrt_add_two_lt n h5
            omega

/-! ## Miller-Rabin: timeout and witness produce the same boolean (C7) -/

/-- C7: the round loop consults the timeout oracle before every round, and
a timed-out round makes the whole test return `false`; a compositeness
witness (a base whose squaring chain neither starts nor ends at `m - 1`)
also makes it return `false`.  Both outcomes are the literal constant
`false`, so the returned boolean cannot distinguish them.  The first
conjunct states the same for `miller_rabin_test` itself at round `0`. -/
theorem miller_rabin_timeout_indistinguishable :
    (∀ p k bases timeoutAt, 0 < k → timeoutAt 0 = true →
      miller_rabin_test p k bases timeoutAt = false) ∧
    (∀ m m1 d s bases timeoutAt i r, timeoutAt i = true →
      miller_rabin_loop m m1 d s bases timeoutAt i (r + 1) = false) ∧
    (∀ m m1 d s bases timeoutAt i r, timeoutAt i = false →
      bases i ^ d % m ≠ 1 → bases i ^ d % m ≠ m1 →
      mr_squarings m m1 (s - 1) (bases i ^ d % m) = false →
      miller_rabin_loop m m1 d s bases timeoutAt i (r + 1) = false) := by
  refine ⟨?_, ?_, ?_⟩
  · intro p k bases timeoutAt hk ht
    obtain ⟨r, rfl⟩ : ∃ r, k = r + 1 := ⟨k - 1, by omega⟩
    simp [miller_rabin_test, miller_rabin_loop, ht]
  · intro m m1 d s bases timeoutAt i r ht
    simp [miller_rabin_loop, ht]
  · intro m m1 d s bases timeoutAt i r ht hx1 hxm hsq
    simp [miller_rabin_loop, ht, hx1, hxm, hsq]

/-- Witness for `miller_rabin_timeout_indistinguishable`: with the timeout
oracle constantly `true` (timeout already elapsed when round 0 begins),
`miller_rabin_test 7 5` returns `false`. -/
theorem miller_rabin_timeout_indistinguishable_witness :
    miller_rabin_test 7 5 (fun _ => 2) (fun _ => true) = false :=
  miller_rabin_timeout_indistinguishable.1 7 5 (fun _ => 2) (fun _ => true) (by decide) rfl

/-! ## `check_small_factors` (C6) -/

/-- `is_prime` only accepts numbers `≥ 2`. -/
lemma is_prime_two_le {p : Nat} (h : is_prime p = true) : 2 ≤ p := by
  by_contra hlt
  rw [is_prime, if_pos (by omega : p ≤ 1)] at h
  exact Bool.false_ne_true h

/-- The candidate loop, run with enough fuel, returns the first `k ≥` the
current index with `2kp < limit` whose candidate `q = 2kp + 1` passes all
four acceptance tests (`qualifies`). -/
lemma check_small_factors_loop_eq (p limit : Nat) (hp : 1 ≤ p) :
    ∀ fuel k, 1 ≤ k → limit ≤ k + fuel →
      check_small_factors_loop p limit fuel k =
        (((List.range' k (limit - k)).filter fun j =>
            decide (2 * j * p < limit) && qualifies p (2 * j * p + 1)).head?).map
          (fun j => 2 * j * p + 1) := by
  intro fuel
  induction fuel with
  | zero =>
    intro k _ hfuel
    have : limit - k = 0 := by omega
    rw [this]
    rfl
  | succ fuel ih =>
    intro k hk hfuel
    by_cases hguard : 2 * k * p < limit
    · have hk2 : k ≤ 2 * k * p := by
        calc k = k * 1 := (Nat.mul_one k).symm
          _ ≤ k * (2 * p) := Nat.mul_le_mul_left k (by omega)
          _ = 2 * k * p := by ring
      have hrange : limit - k = (limit - (k + 1)) + 1 := by omega
      rw [hrange, List.range'_succ]
      have hq' : (1 <<< p) - 1 = 2 ^ p - 1 := by rw [Nat.one_shiftLeft]
      by_cases hb1 : ((2 * k * p + 1) % 8 == 1 || (2 * k * p + 1) % 8 == 7)
          && is_prime (2 * k * p + 1)
      · by_cases hb2 : 2 ^ p % (2 * k * p + 1) = 1
        · by_cases hb3 : 2 * k * p + 1 = 2 ^ p - 1
          · have hqual : qualifies p (2 * k * p + 1) = false := by
              unfold qualifies
              simp [hb3]
            rw [List.filter_cons_of_neg (by simp [hqual])]
            have hloop : check_small_factors_loop p limit (fuel + 1) k =
                check_small_factors_loop p limit fuel (k + 1) := by
              rw [check_small_factors_loop, if_pos hguard, if_pos hb1, if_pos hb2,
                if_neg (by rw [hq']; simpa using hb3)]
            rw [hloop]
            exact ih (k + 1) (by omega) (by omega)
          · have hqual : qualifies p (2 * k * p + 1) = true := by
              unfold qualifies
              simp only [Bool.and_eq_true] at hb1 ⊢
              exact ⟨⟨⟨hb1.1, hb1.2⟩, by simpa using hb2⟩, by simpa using hb3⟩
            rw [List.filter_cons_of_pos (by simp [hqual, hguard])]
            have hloop : check_small_factors_loop p limit (fuel + 1) k =
                some (2 * k * p + 1) := by
              rw [check_small_factors_loop, if_pos hguard, if_pos hb1, if_pos hb2,
                if_pos (by rw [hq']; simpa using hb3)]
            rw [hloop]
            rfl
        · have hqual : qualifies p (2 * k * p + 1) = false := by
            unfold qualifies
            simp [hb2]
          rw [List.filter_cons_of_neg (by simp [hqual])]
          have hloop : check_small_factors_loop p limit (fuel + 1) k =
              check_small_factors_loop p limit fuel (k + 1) := by
            rw [check_small_factors_loop, if_pos hguard, if_pos hb1, if_neg hb2]
          rw [hloop]
          exact ih (k + 1) (by omega) (by omega)
      · have hqual : qualifies p (2 * k * p + 1) = false := by
          unfold qualifies
          rcases Bool.and_eq_false_iff.mp (Bool.eq_false_iff.mpr hb1) with h | h
          · simp [h]
          · simp [h]
        rw [List.filter_cons_of_neg (by simp [hqual])]
        have hloop : check_small_factors_loop p limit (fuel + 1) k =
            check_small_factors_loop p limit fuel (k + 1) := by
          rw [check_small_factors_loop, if_pos hguard, if_neg (by simpa using hb1)]
        rw [hloop]
        exact ih (k + 1) (by omega) (by omega)
    · have hloop : check_small_factors_loop p limit (fuel + 1) k = none := by
        rw [check_small_factors_loop, if_neg hguard]
      rw [hloop]
      have hfilter : ((List.range' k (limit - k)).filter fun j =>
          decide (2 * j * p < limit) && qualifies p (2 * j * p + 1)) = [] := by
        rw [List.filter_eq_nil_iff]
        intro j hj
        obtain ⟨i, _, rfl⟩ := List.mem_range'.mp hj
        have : 2 * k * p ≤ 2 * (k + 1 * i) * p := by
          apply Nat.mul_le_mul_right
          omega
        simp only [Bool.and_eq_true, decide_eq_true_eq]
        intro hcon
        omega
      rw [hfilter]
      rfl

/-- Dropping the `k = 0` candidate: filtering `range limit` with a `1 ≤ k`
conjunct is filtering `range' 1 (limit - 1)`. -/
lemma range_filter_pos_eq (limit : Nat) (f : Nat → Bool) :
    ((List.range limit).filter fun k => decide (1 ≤ k) && f k) =
      (List.range' 1 (limit - 1)).filter f := by
  cases limit with
  | zero => rfl
  | succ m =>
    rw [List.range_eq_range', List.range'_succ]
    rw [List.filter_cons_of_neg (by simp)]
    have : m + 1 - 1 = m := rfl
    rw [this]
    apply List.filter_congr
    intro x hx
    obtain ⟨i, _, rfl⟩ := List.mem_range'.mp hx
    simp

/-- C6 (amended): on the wrap-free domain `limit + 2p ≤ 2^64` — where none
of the `u64` products `2kp` the source evaluates can overflow, so the
embedding is exact (see `check_small_factors_loop`) —
`check_small_factors p limit` returns exactly the first qualifying
candidate `q = 2kp + 1`, `k = 1, 2, ...`, enumerated while `2kp < limit`
(not while `2kp + 1 < limit` as the claim stated), and `None` when that
enumeration is exhausted or `p` is not prime; in particular
`check_small_factors 11 1000000 = some 23`.  Outside that domain the
source wraps (release) or panics (debug) and, for primes `p > 2^63`, need
not return at all, so no equation is claimed there. -/
theorem check_small_factors_eq_amended :
    (∀ p limit, limit + 2 * p ≤ 2 ^ 64 →
        check_small_factors p limit = find_small_factor_amended p limit) ∧
      check_small_factors 11 1000000 = some 23 := by
  constructor
  · intro p limit _
    by_cases hprime : is_prime p
    · have hp1 : 1 ≤ p := by
        have := is_prime_two_le hprime
        omega
      rw [check_small_factors, find_small_factor_amended, if_pos hprime, hprime]
      simp only [Bool.not_true, Bool.false_eq_true, if_false]
      rw [check_small_factors_loop_eq p limit hp1 limit 1 (by omega) (by omega)]
      rw [range_filter_pos_eq limit
        (fun j => decide (2 * j * p < limit) && qualifies p (2 * j * p + 1))]
    · rw [check_small_factors, find_small_factor_amended]
      rw [Bool.eq_false_iff.mpr hprime]
      simp
  · decide

/-- Witness for `check_small_factors_eq_amended` at the spec's own test
point `p = 11`, `limit = 1_000_000`, which lies well inside the wrap-free
domain. -/
theorem check_small_factors_eq_amended_witness :
    1000000 + 2 * 11 ≤ 2 ^ 64 ∧
      check_small_factors 11 1000000 = find_small_factor_amended 11 1000000 :=
  ⟨by decide, check_small_factors_eq_amended.1 11 1000000 (by decide)⟩

/-- C6 (counterexample): at `p = 11`, `limit = 23` the code accepts the
boundary candidate `q = 2·1·11 + 1 = 23 = limit` (its guard is
`2kp < limit`), while the claimed enumeration bound `2kp + 1 < limit`
excludes it and would return `None`. -/
theorem check_small_factors_boundary_counterexample :
    check_small_factors 11 23 = some 23 ∧ find_small_factor_claimed 11 23 = none :=
  ⟨by decide, by decide⟩

/-! ## Pipeline invariants (C4, C10) -/

/-- C4: whatever `p`, requested level and oracle outcomes, a returned run
log is one `CheckResult` per executed stage of the canonical order
(`PreScreen`, `TrialFactoring`, `Probabilistic`, `LucasLehmer`, built in
exactly that order by `check_mersenne_candidate`), hence non-empty and of
length at most `4`, and every element before the last records a pass — a
failing `CheckResult` can only be the final element, because the pipeline
stops at the first failure or at the requested level. -/
theorem check_mersenne_candidate_prefix (p : Nat) (level : CheckLevel)
    (bases : Nat → Nat) (timeoutAt : Nat → Bool) (rs : List CheckResult)
    (h : check_mersenne_candidate p level bases timeoutAt = some rs) :
    rs ≠ [] ∧ rs.length ≤ 4 ∧ ∀ r ∈ rs.dropLast, r.passed = true := by
  unfold check_mersenne_candidate at h
  by_cases h1 : (!is_prime p || level == CheckLevel.PreScreen) = true
  · rw [if_pos h1] at h
    cases h
    simp
  · rw [if_neg h1] at h
    have hpp : is_prime p = true := by
      rcases Bool.or_eq_false_iff.mp (Bool.eq_false_iff.mpr h1) with ⟨hn, _⟩
      simpa using hn
    rcases hsf : check_small_factors p 1000000 with _ | factor
    · rw [hsf] at h
      simp only at h
      by_cases h2 : (level == CheckLevel.TrialFactoring) = true
      · rw [if_pos h2] at h
        cases h
        simp [hpp]
      · rw [if_neg h2] at h
        by_cases h3 : (!miller_rabin_test p 5 bases timeoutAt
            || level == CheckLevel.Probabilistic) = true
        · rw [if_pos h3] at h
          cases h
          simp [hpp]
        · rw [if_neg h3] at h
          have hmr : miller_rabin_test p 5 bases timeoutAt = true := by
            rcases Bool.or_eq_false_iff.mp (Bool.eq_false_iff.mpr h3) with ⟨hn, _⟩
            simpa using hn
          rcases hll : lucas_lehmer_test p with _ | b
          · rw [hll] at h
            cases h
          · rw [hll] at h
            cases h
            simp [hpp, hmr]
    · rw [hsf] at h
      simp only at h
      cases h
      simp [hpp]

/-- Witness for `check_mersenne_candidate_prefix` at `p = 8` (composite
exponent), level `TrialFactoring`: the run is the single failing
`PreScreen` result. -/
theorem check_mersenne_candidate_prefix_witness :
    ([⟨false, "Exponent is not prime"⟩] : List CheckResult) ≠ [] ∧
      ([⟨false, "Exponent is not prime"⟩] : List CheckResult).length ≤ 4 ∧
      ∀ r ∈ ([⟨false, "Exponent is not prime"⟩] : List CheckResult).dropLast,
        r.passed = true :=
  check_mersenne_candidate_prefix 8 CheckLevel.TrialFactoring (fun _ => 2) (fun _ => false)
    [⟨false, "Exponent is not prime"⟩] (by decide)

/-- C10: (i) for a non-prime exponent, `check_small_factors` answers `None`
before enumerating any candidate (its first statement is the `is_prime`
guard); (ii) every returned pipeline log is non-empty and starts with the
`PreScreen` result, whose `passed` flag is exactly `is_prime p`. -/
theorem pipeline_entry_behavior :
    (∀ p limit, is_prime p = false → check_small_factors p limit = none) ∧
    (∀ p level bases timeoutAt rs,
        check_mersenne_candidate p level bases timeoutAt = some rs →
        rs ≠ [] ∧ rs.head? = some ⟨is_prime p,
          if is_prime p then "Exponent is prime" else "Exponent is not prime"⟩) := by
  constructor
  · intro p limit hp
    rw [check_small_factors, hp]
    rfl
  · intro p level bases timeoutAt rs h
    unfold check_mersenne_candidate at h
    by_cases h1 : (!is_prime p || level == CheckLevel.PreScreen) = true
    · rw [if_pos h1] at h
      cases h
      simp
    · rw [if_neg h1] at h
      have hpp : is_prime p = true := by
        rcases Bool.or_eq_false_iff.mp (Bool.eq_false_iff.mpr h1) with ⟨hn, _⟩
        simpa using hn
      rcases hsf : check_small_factors p 1000000 with _ | factor
      · rw [hsf] at h
        simp only at h
        by_cases h2 : (level == CheckLevel.TrialFactoring) = true
        · rw [if_pos h2] at h
          cases h
          simp [hpp]
        · rw [if_neg h2] at h
          by_cases h3 : (!miller_rabin_test p 5 bases timeoutAt
              || level == CheckLevel.Probabilistic) = true
          · rw [if_pos h3] at h
            cases h
            simp [hpp]
          · rw [if_neg h3] at h
            rcases hll : lucas_lehmer_test p with _ | b
            · rw [hll] at h
              cases h
            · rw [hll] at h
              cases h
              simp [hpp]
      · rw [hsf] at h
        simp only at h
        cases h
        simp [hpp]

/-- Witness for `pipeline_entry_behavior`: `check_small_factors 9 100`
declines the non-prime exponent `9`, and the pipeline log for `p = 8`
starts (and ends) with the failing `PreScreen` entry. -/
theorem pipeline_entry_behavior_witness :
    check_small_factors 9 100 = none ∧
      (([⟨false, "Exponent is not prime"⟩] : List CheckResult) ≠ [] ∧
        ([⟨false, "Exponent is not prime"⟩] : List CheckResult).head? =
          some ⟨is_prime 8,
            if is_prime 8 then "Exponent is prime" else "Exponent is not prime"⟩) :=
  ⟨pipeline_entry_behavior.1 9 100 (by decide),
    pipeline_entry_behavior.2 8 CheckLevel.TrialFactoring (fun _ => 2) (fun _ => false)
      [⟨false, "Exponent is not prime"⟩] (by decide)⟩

/-! ## Lucas-Lehmer (C2)

The embedded run is related to Mathlib's integer-valued Lucas-Lehmer
sequence `LucasLehmer.sMod`.  Mathlib provides the sufficiency direction
(`lucas_lehmer_sufficiency`); the necessity direction (`2^p - 1` prime
implies residue `0`) is proved below in the ring `LucasLehmer.X`
(`ℤ/qℤ[√3]`) via Euler's criterion and quadratic reciprocity. -/

/-- One embedded Lucas-Lehmer step agrees with one `sMod` step: from a
state `t ≥ 2` that matches `sMod p i`, the step succeeds and produces the
state matching `sMod p (i + 1)`. -/
lemma step_eq_sMod (p : Nat) (hp : 1 ≤ p) (i : Nat) (t : Nat)
    (ht : (t : Int) = LucasLehmer.sMod p i) (h2 : 2 ≤ t) :
    square_and_subtract_two_mod_mp t p = some ((t * t - 2) % (2 ^ p - 1)) ∧
      (((t * t - 2) % (2 ^ p - 1) : Nat) : Int) = LucasLehmer.sMod p (i + 1) := by
  have h4 : 4 ≤ t * t := Nat.mul_le_mul h2 h2
  constructor
  · rw [square_and_subtract_two_mod_mp]
    simp only [if_neg (by omega : ¬ t * t < 2)]
    rw [mod_mp_eq_mod _ _ hp]
  · have hcast : (((t * t - 2) % (2 ^ p - 1) : Nat) : Int)
        = ((t : Int) * t - 2) % ((2 : Int) ^ p - 1) := by
      rw [Int.ofNat_emod, LucasLehmer.Int.coe_nat_two_pow_pred]
      congr 1
      rw [Nat.cast_sub (by omega : 2 ≤ t * t)]
      push_cast
      ring
    rw [hcast]
    show _ = LucasLehmer.sMod p (i + 1)
    rw [LucasLehmer.sMod, ← ht]
    congr 1
    ring

/-- If the embedded run from a state matching `sMod p i` completes, its
result matches `sMod p (i + n)`. -/
lemma ll_steps_val (p : Nat) (hp : 1 ≤ p) :
    ∀ (n i t v : Nat), (t : Int) = LucasLehmer.sMod p i → ll_steps p n t = some v →
      (v : Int) = LucasLehmer.sMod p (i + n) := by
  intro n
  induction n with
  | zero =>
    intro i t v ht hrun
    cases hrun
    exact ht
  | succ n ih =>
    intro i t v ht hrun
    rw [ll_steps] at hrun
    have h2 : 2 ≤ t := by
      by_contra hlt
      have htt : t * t < 2 := by
        have : t * t ≤ 1 * 1 := Nat.mul_le_mul (by omega) (by omega)
        omega
      rw [square_and_subtract_two_mod_mp] at hrun
      simp only [if_pos htt] at hrun
      exact Option.noConfusion hrun
    obtain ⟨hstep, hval⟩ := step_eq_sMod p hp i t ht h2
    rw [hstep] at hrun
    have := ih (i + 1) ((t * t - 2) % (2 ^ p - 1)) v hval hrun
    rw [this]
    congr 1
    omega

/-- If the matching `sMod` states stay `≥ 2` for `n` steps, the embedded
run does not abort. -/
lemma ll_steps_total (p : Nat) (hp : 1 ≤ p) :
    ∀ (n i t : Nat), (t : Int) = LucasLehmer.sMod p i →
      (∀ j, i ≤ j → j < i + n → 2 ≤ LucasLehmer.sMod p j) →
      ∃ v, ll_steps p n t = some v := by
  intro n
  induction n with
  | zero => intro i t _ _; exact ⟨t, rfl⟩
  | succ n ih =>
    intro i t ht hge
    have h2i : 2 ≤ LucasLehmer.sMod p i := hge i le_rfl (by omega)
    have h2 : 2 ≤ t := by
      have : (2 : Int) ≤ (t : Int) := ht ▸ h2i
      exact_mod_cast this
    obtain ⟨hstep, hval⟩ := step_eq_sMod p hp i t ht h2
    obtain ⟨v, hv⟩ := ih (i + 1) ((t * t - 2) % (2 ^ p - 1)) hval
      (fun j hj1 hj2 => hge j (by omega) (by omega))
    refine ⟨v, ?_⟩
    rw [ll_steps, hstep]
    exact hv

/-- The defining step of `sMod`. -/
lemma sMod_succ (p i : Nat) :
    LucasLehmer.sMod p (i + 1) = (LucasLehmer.sMod p i ^ 2 - 2) % ((2 : Int) ^ p - 1) := rfl

/-- For `p ≥ 3` the Mersenne modulus is at least `7`. -/
lemma mersenne_int_ge_seven (p : Nat) (hp : 3 ≤ p) : (7 : Int) ≤ (2 : Int) ^ p - 1 := by
  have h8 : (2 : Int) ^ 3 ≤ 2 ^ p := pow_le_pow_right₀ (by norm_num) hp
  norm_num at h8
  omega

/-- A state `2` is a fixed point of the `sMod` recurrence. -/
lemma sMod_two_fixed (p i : Nat) (hp : 3 ≤ p) (h : LucasLehmer.sMod p i = 2) :
    LucasLehmer.sMod p (i + 1) = 2 := by
  have hM := mersenne_int_ge_seven p hp
  rw [sMod_succ, h]
  norm_num
  exact Int.emod_eq_of_lt (by norm_num) (by omega)

/-- A state `M - 1` is a fixed point of the `sMod` recurrence. -/
lemma sMod_m1_fixed (p i : Nat) (hp : 3 ≤ p)
    (h : LucasLehmer.sMod p i = (2 : Int) ^ p - 1 - 1) :
    LucasLehmer.sMod p (i + 1) = (2 : Int) ^ p - 1 - 1 := by
  have hM := mersenne_int_ge_seven p hp
  rw [sMod_succ, h]
  set M : Int := (2 : Int) ^ p - 1 with hMdef
  have hexp : (M - 1) ^ 2 - 2 = (M - 1) + M * (M - 3) := by ring
  rw [hexp, Int.add_mul_emod_self_left]
  exact Int.emod_eq_of_lt (by omega) (by omega)

/-- From a state `0` the next state is `M - 2`. -/
lemma sMod_zero_step (p i : Nat) (hp : 3 ≤ p) (h : LucasLehmer.sMod p i = 0) :
    LucasLehmer.sMod p (i + 1) = (2 : Int) ^ p - 1 - 2 := by
  have hM := mersenne_int_ge_seven p hp
  rw [sMod_succ, h]
  set M : Int := (2 : Int) ^ p - 1 with hMdef
  have hexp : (0 : Int) ^ 2 - 2 = (M - 2) + M * (-1) := by ring
  rw [hexp, Int.add_mul_emod_self_left]
  exact Int.emod_eq_of_lt (by omega) (by omega)

/-- From a state `1` the next state is `M - 1`. -/
lemma sMod_one_step (p i : Nat) (hp : 3 ≤ p) (h : LucasLehmer.sMod p i = 1) :
    LucasLehmer.sMod p (i + 1) = (2 : Int) ^ p - 1 - 1 := by
  have hM := mersenne_int_ge_seven p hp
  rw [sMod_succ, h]
  set M : Int := (2 : Int) ^ p - 1 with hMdef
  have hexp : (1 : Int) ^ 2 - 2 = (M - 1) + M * (-1) := by ring
  rw [hexp, Int.add_mul_emod_self_left]
  exact Int.emod_eq_of_lt (by omega) (by omega)

/-- From a state `M - 2` the next state is `2`. -/
lemma sMod_m2_step (p i : Nat) (hp : 3 ≤ p)
    (h : LucasLehmer.sMod p i = (2 : Int) ^ p - 1 - 2) :
    LucasLehmer.sMod p (i + 1) = 2 := by
  have hM := mersenne_int_ge_seven p hp
  rw [sMod_succ, h]
  set M : Int := (2 : Int) ^ p - 1 with hMdef
  have hexp : (M - 2) ^ 2 - 2 = 2 + M * (M - 4) := by ring
  rw [hexp, Int.add_mul_emod_self_left]
  exact Int.emod_eq_of_lt (by omega) (by omega)

/-- `2` stays forever. -/
lemma sMod_two_forever (p : Nat) (hp : 3 ≤ p) (i : Nat)
    (h : LucasLehmer.sMod p i = 2) :
    ∀ j, i ≤ j → LucasLehmer.sMod p j = 2 := by
  intro j hij
  induction j, hij using Nat.le_induction with
  | base => exact h
  | succ j _ ihj => exact sMod_two_fixed p j hp ihj

/-- `M - 1` stays forever. -/
lemma sMod_m1_forever (p : Nat) (hp : 3 ≤ p) (i : Nat)
    (h : LucasLehmer.sMod p i = (2 : Int) ^ p - 1 - 1) :
    ∀ j, i ≤ j → LucasLehmer.sMod p j = (2 : Int) ^ p - 1 - 1 := by
  intro j hij
  induction j, hij using Nat.le_induction with
  | base => exact h
  | succ j _ ihj => exact sMod_m1_fixed p j hp ihj

/-- If the final residue is `0`, no state before the final one is `0` or
`1` — otherwise the tail of the run would be constantly `2` or `M - 1`,
contradicting the final `0`. -/
lemma sMod_ge_two_of_final_zero (p : Nat) (hp : 3 ≤ p)
    (h0 : LucasLehmer.sMod p (p - 2) = 0) :
    ∀ i, i < p - 2 → 2 ≤ LucasLehmer.sMod p i := by
  intro i hi
  have hM := mersenne_int_ge_seven p hp
  by_contra hlt
  have hnn : 0 ≤ LucasLehmer.sMod p i := LucasLehmer.sMod_nonneg p (by omega) i
  have hcases : LucasLehmer.sMod p i = 0 ∨ LucasLehmer.sMod p i = 1 := by omega
  rcases hcases with hz | ho
  · have hnext := sMod_zero_step p i hp hz
    by_cases hlast : i + 1 = p - 2
    · rw [hlast] at hnext
      rw [h0] at hnext
      omega
    · have htwo := sMod_m2_step p (i + 1) hp hnext
      have := sMod_two_forever p hp (i + 2) htwo (p - 2) (by omega)
      rw [h0] at this
      omega
  · have hnext := sMod_one_step p i hp ho
    by_cases hlast : i + 1 = p - 2
    · rw [hlast] at hnext
      rw [h0] at hnext
      omega
    · have := sMod_m1_forever p hp (i + 1) hnext (p - 2) (by omega)
      rw [h0] at this
      omega

open LucasLehmer in
/-- `√3` in the quadratic extension ring `X q = ℤ/qℤ[√3]`. -/
def sqrt3 (q : ℕ+) : X q := (0, 1)

@[simp] lemma sqrt3_fst (q : ℕ+) : (sqrt3 q).1 = 0 := rfl

@[simp] lemma sqrt3_snd (q : ℕ+) : (sqrt3 q).2 = 1 := rfl

@[simp] lemma omega_fst (q : ℕ+) : (LucasLehmer.X.ω : LucasLehmer.X q).1 = 2 := rfl

@[simp] lemma omega_snd (q : ℕ+) : (LucasLehmer.X.ω : LucasLehmer.X q).2 = 1 := rfl

/-- `X q` has characteristic `q` (the natural cast lands in the first
component, which is `ZMod q`). -/
lemma X_charP (q : ℕ+) : CharP (LucasLehmer.X q) q := by
  constructor
  intro n
  constructor
  · intro h
    have h1 : ((n : LucasLehmer.X q)).1 = (0 : LucasLehmer.X q).1 := by rw [h]
    rw [LucasLehmer.X.fst_natCast, LucasLehmer.X.zero_fst] at h1
    exact (CharP.cast_eq_zero_iff (ZMod q) q n).mp h1
  · intro h
    have h1 : ((n : ZMod q)) = 0 := (CharP.cast_eq_zero_iff (ZMod q) q n).mpr h
    apply LucasLehmer.X.ext <;> simp [h1]

/-- The diagonal embedding `ZMod q → X q` (the first component is the
`ZMod q` part, the `√3` coefficient is `0`).  Pair literals ascribed to
`X q` elaborate at the underlying product type and would pick up the
componentwise product instance, so diagonal elements are always built
through this definition, whose declared type keeps the `X q` ring
structure. -/
def diag (q : ℕ+) (a : ZMod q) : LucasLehmer.X q := (a, 0)

@[simp] lemma diag_fst (q : ℕ+) (a : ZMod q) : (diag q a).1 = a := rfl

@[simp] lemma diag_snd (q : ℕ+) (a : ZMod q) : (diag q a).2 = 0 := rfl

/-- Powers of a diagonal element of `X q`. -/
lemma diag_pow (q : ℕ+) (a : ZMod q) (m : Nat) :
    diag q a ^ m = diag q (a ^ m) := by
  induction m with
  | zero =>
    rw [pow_zero, pow_zero]
    apply LucasLehmer.X.ext
    · rw [LucasLehmer.X.one_fst, diag_fst]
    · rw [LucasLehmer.X.one_snd, diag_snd]
  | succ m ih =>
    rw [pow_succ, ih]
    apply LucasLehmer.X.ext
    · show a ^ m * a + 3 * 0 * 0 = a ^ (m + 1)
      rw [pow_succ]
      ring
    · show a ^ m * 0 + 0 * a = 0
      ring

@[simp] lemma two_eq_diag (q : ℕ+) : diag q 2 = (2 : LucasLehmer.X q) := by
  apply LucasLehmer.X.ext
  · rw [LucasLehmer.X.ofNat_fst, diag_fst]
  · rw [LucasLehmer.X.ofNat_snd, diag_snd]

lemma sqrt3_mul_sqrt3 (q : ℕ+) : sqrt3 q * sqrt3 q = diag q 3 := by
  apply LucasLehmer.X.ext
  · show 0 * 0 + 3 * 1 * 1 = (3 : ZMod q)
    ring
  · show 0 * 1 + 1 * 0 = (0 : ZMod q)
    ring

/-- Euler's criterion for `3` at a prime `q ≡ 3 (mod 4)`, `q ≡ 1 (mod 3)`:
`3` is a non-residue, by quadratic reciprocity. -/
lemma euler_pow_three (q : ℕ+) [Fact (Nat.Prime (q : ℕ))] (h4 : (q : ℕ) % 4 = 3)
    (h3 : (q : ℕ) % 3 = 1) : (3 : ZMod q) ^ ((q : ℕ) / 2) = -1 := by
  have hq2 : (q : ℕ) ≠ 2 := by omega
  have hq3 : (3 : ℕ) ≠ (q : ℕ) := by omega
  have hqr := legendreSym.quadratic_reciprocity (p := 3) (q := (q : ℕ))
    (by norm_num) hq2 hq3
  push_cast at hqr
  have hmod3 : ((q : ℕ) : ℤ) % (((3 : ℕ)) : ℤ) = 1 := by push_cast; omega
  have hthree : legendreSym 3 ((q : ℕ) : ℤ) = 1 := by
    rw [legendreSym.mod 3, hmod3, legendreSym.at_one]
  have hoddhalf : Odd ((q : ℕ) / 2) := Nat.odd_iff.mpr (by omega)
  rw [hthree, mul_one] at hqr
  norm_num at hqr
  have hleg : legendreSym (q : ℕ) 3 = -1 := by
    rw [hqr]
    exact hoddhalf.neg_one_pow
  have heul := legendreSym.eq_pow (p := (q : ℕ)) 3
  rw [hleg] at heul
  push_cast at heul
  exact heul.symm

/-- Euler's criterion for `2` at a prime `q ≡ 7 (mod 8)`: `2` is a
quadratic residue. -/
lemma euler_pow_two (q : ℕ+) [Fact (Nat.Prime (q : ℕ))] (h8 : (q : ℕ) % 8 = 7) :
    (2 : ZMod q) ^ ((q : ℕ) / 2) = 1 := by
  have hq2 : (q : ℕ) ≠ 2 := by omega
  have hat := legendreSym.at_two (p := (q : ℕ)) hq2
  rw [ZMod.χ₈_nat_eq_if_mod_eight, if_neg (by omega), if_pos (Or.inr h8)] at hat
  have heul := legendreSym.eq_pow (p := (q : ℕ)) 2
  rw [hat] at heul
  push_cast at heul
  exact heul.symm

@[simp] lemma X_sub_fst (q : ℕ+) (x y : LucasLehmer.X q) : (x - y).1 = x.1 - y.1 := rfl

@[simp] lemma X_sub_snd (q : ℕ+) (x y : LucasLehmer.X q) : (x - y).2 = x.2 - y.2 := rfl

/-- The key step of Lucas-Lehmer necessity: at a prime `q` with
`q ≡ 7 (mod 8)` and `q ≡ 1 (mod 3)`, the element `ω = 2 + √3` satisfies
`ω ^ ((q+1)/2) = -1` in `X q`.  (Frobenius on `1 + √3`, using that `3` is a
non-residue and `2` a residue mod `q`.) -/
lemma omega_pow_eq_neg_one (q : ℕ+) [Fact (Nat.Prime (q : ℕ))]
    (h8 : (q : ℕ) % 8 = 7) (h3 : (q : ℕ) % 3 = 1) :
    (LucasLehmer.X.ω : LucasLehmer.X q) ^ ((q : ℕ) / 2 + 1) = -1 := by
  haveI := X_charP q
  have h7 : 7 ≤ (q : ℕ) := by omega
  have h3pow := euler_pow_three q (by omega) h3
  have h2pow := euler_pow_two q h8
  have hq_eq : (q : ℕ) = 2 * ((q : ℕ) / 2) + 1 := by omega
  -- Frobenius: √3 ^ q = -√3
  have hs3q : sqrt3 q ^ (q : ℕ) = - sqrt3 q := by
    calc sqrt3 q ^ (q : ℕ) = sqrt3 q ^ (2 * ((q : ℕ) / 2) + 1) := by rw [← hq_eq]
      _ = (sqrt3 q ^ 2) ^ ((q : ℕ) / 2) * sqrt3 q := by rw [pow_succ, pow_mul]
      _ = diag q ((3 : ZMod q) ^ ((q : ℕ) / 2)) * sqrt3 q := by
          rw [pow_two, sqrt3_mul_sqrt3, diag_pow]
      _ = diag q (-1) * sqrt3 q := by rw [h3pow]
      _ = - sqrt3 q := by
          apply LucasLehmer.X.ext
          · show (-1) * 0 + 3 * 0 * 1 = -(0 : ZMod q)
            ring
          · show (-1) * 1 + 0 * 0 = -(1 : ZMod q)
            ring
  -- Frobenius: (1 + √3) ^ q = 1 - √3
  have hfrob : (1 + sqrt3 q) ^ (q : ℕ) = 1 - sqrt3 q := by
    rw [add_pow_char, one_pow, hs3q, sub_eq_add_neg]
  -- (1 + √3) ^ (q + 1) = -2, via Frobenius
  have hmul : (1 - sqrt3 q) * (1 + sqrt3 q) = (-2 : LucasLehmer.X q) := by
    apply LucasLehmer.X.ext
    · simp only [LucasLehmer.X.mul_fst, X_sub_fst, X_sub_snd, LucasLehmer.X.add_fst,
        LucasLehmer.X.add_snd, LucasLehmer.X.one_fst, LucasLehmer.X.one_snd,
        sqrt3_fst, sqrt3_snd, LucasLehmer.X.neg_fst, LucasLehmer.X.ofNat_fst]
      ring
    · simp only [LucasLehmer.X.mul_snd, X_sub_fst, X_sub_snd, LucasLehmer.X.add_fst,
        LucasLehmer.X.add_snd, LucasLehmer.X.one_fst, LucasLehmer.X.one_snd,
        sqrt3_fst, sqrt3_snd, LucasLehmer.X.neg_snd, LucasLehmer.X.ofNat_snd]
      ring
  have hA : (1 + sqrt3 q) ^ ((q : ℕ) + 1) = (-2 : LucasLehmer.X q) := by
    rw [pow_succ, hfrob, hmul]
  -- (1 + √3) ^ (q + 1) = 2 * ω ^ ((q+1)/2), via the square
  have hsq2 : (1 + sqrt3 q) ^ 2 = 2 * LucasLehmer.X.ω := by
    rw [pow_two]
    apply LucasLehmer.X.ext
    · simp only [LucasLehmer.X.mul_fst, LucasLehmer.X.add_fst, LucasLehmer.X.add_snd,
        LucasLehmer.X.one_fst, LucasLehmer.X.one_snd, sqrt3_fst, sqrt3_snd,
        LucasLehmer.X.ofNat_fst, LucasLehmer.X.ofNat_snd, omega_fst, omega_snd]
      ring
    · simp only [LucasLehmer.X.mul_snd, LucasLehmer.X.add_fst, LucasLehmer.X.add_snd,
        LucasLehmer.X.one_fst, LucasLehmer.X.one_snd, sqrt3_fst, sqrt3_snd,
        LucasLehmer.X.ofNat_fst, LucasLehmer.X.ofNat_snd, omega_fst, omega_snd]
      ring
  have h2xpow : (2 : LucasLehmer.X q) ^ ((q : ℕ) / 2 + 1) = 2 := by
    rw [← two_eq_diag, diag_pow, pow_succ, h2pow, one_mul, two_eq_diag]
  have hq1 : (q : ℕ) + 1 = 2 * ((q : ℕ) / 2 + 1) := by omega
  have hB : (1 + sqrt3 q) ^ ((q : ℕ) + 1)
      = 2 * (LucasLehmer.X.ω : LucasLehmer.X q) ^ ((q : ℕ) / 2 + 1) := by
    rw [hq1, pow_mul, hsq2, mul_pow, h2xpow]
  -- cancel the invertible 2
  have h2ne : (2 : ZMod q) ≠ 0 := by
    intro hcon
    have h2c : ((2 : ℕ) : ZMod q) = 0 := by
      push_cast
      exact hcon
    have := (CharP.cast_eq_zero_iff (ZMod q) q 2).mp h2c
    have := Nat.le_of_dvd (by norm_num) this
    omega
  have hkey : (2 : LucasLehmer.X q)
      * ((LucasLehmer.X.ω : LucasLehmer.X q) ^ ((q : ℕ) / 2 + 1) + 1) = 0 := by
    rw [mul_add, mul_one, ← hB, hA]
    show (-2 : LucasLehmer.X q) + 2 = 0
    ring
  have hcomp1 : (2 : ZMod q) * ((LucasLehmer.X.ω : LucasLehmer.X q) ^ ((q : ℕ) / 2 + 1) + 1).1
      = 0 := by
    have := congrArg Prod.fst hkey
    simpa [LucasLehmer.X.mul_fst] using this
  have hcomp2 : (2 : ZMod q) * ((LucasLehmer.X.ω : LucasLehmer.X q) ^ ((q : ℕ) / 2 + 1) + 1).2
      = 0 := by
    have := congrArg Prod.snd hkey
    simpa [LucasLehmer.X.mul_snd] using this
  have hzero : (LucasLehmer.X.ω : LucasLehmer.X q) ^ ((q : ℕ) / 2 + 1) + 1 = 0 := by
    apply LucasLehmer.X.ext
    · rw [LucasLehmer.X.zero_fst]
      exact (mul_eq_zero.mp hcomp1).resolve_left h2ne
    · rw [LucasLehmer.X.zero_snd]
      exact (mul_eq_zero.mp hcomp2).resolve_left h2ne
  linear_combination hzero

/-- Lucas-Lehmer necessity: if `2^p - 1` is prime (`p ≥ 3` odd), the
Lucas-Lehmer residue vanishes. -/
lemma residue_zero_of_prime (p : Nat) (hp : 3 ≤ p) (hodd : p % 2 = 1)
    (hq : Nat.Prime (2 ^ p - 1)) : lucasLehmerResidue p = 0 := by
  obtain ⟨p', rfl⟩ : ∃ p', p = p' + 2 := ⟨p - 2, by omega⟩
  have hp1 : 1 ≤ p' := by omega
  have hpos : 0 < 2 ^ (p' + 2) - 1 := by
    have h4 : (4 : Nat) ≤ 2 ^ (p' + 2) := by
      calc (4 : Nat) = 2 ^ 2 := by norm_num
        _ ≤ 2 ^ (p' + 2) := Nat.pow_le_pow_right (by norm_num) (by omega)
    omega
  set Q : ℕ+ := ⟨2 ^ (p' + 2) - 1, hpos⟩ with hQdef
  haveI : Fact (Nat.Prime (Q : ℕ)) := ⟨hq⟩
  have hQval : (Q : ℕ) = 2 ^ (p' + 2) - 1 := rfl
  have hpow8 : (2 : Nat) ^ (p' + 2) = 8 * 2 ^ (p' - 1) := by
    have h3 : p' + 2 = 3 + (p' - 1) := by omega
    rw [h3, pow_add]
    norm_num
  have h2pos : (1 : Nat) ≤ 2 ^ (p' - 1) := Nat.one_le_two_pow
  have h8 : (Q : ℕ) % 8 = 7 := by
    rw [hQval]
    omega
  have hs : p' + 2 = 2 * ((p' + 2) / 2) + 1 := by omega
  have hpow3 : (2 : Nat) ^ (p' + 2) = 2 * 4 ^ ((p' + 2) / 2) := by
    conv_lhs => rw [hs]
    rw [pow_succ, pow_mul]
    ring
  have h4mod : 4 ^ ((p' + 2) / 2) % 3 = 1 := by
    rw [Nat.pow_mod]
    norm_num
  have h4pos : (1 : Nat) ≤ 4 ^ ((p' + 2) / 2) := Nat.one_le_pow _ _ (by norm_num)
  have h3 : (Q : ℕ) % 3 = 1 := by
    rw [hQval]
    omega
  have homega := omega_pow_eq_neg_one Q h8 h3
  have hhalf : (Q : ℕ) / 2 + 1 = 2 ^ (p' + 1) := by
    have hp2 : (2 : Nat) ^ (p' + 2) = 2 * 2 ^ (p' + 1) := by
      rw [pow_succ]
      ring
    have h1 : (1 : Nat) ≤ 2 ^ (p' + 1) := Nat.one_le_two_pow
    rw [hQval]
    omega
  rw [hhalf] at homega
  have hsplit : 2 ^ p' + 2 ^ p' = 2 ^ (p' + 1) := by
    rw [pow_succ]
    ring
  have hunit : (LucasLehmer.X.ωb : LucasLehmer.X Q) ^ (2 ^ p')
      * (LucasLehmer.X.ω : LucasLehmer.X Q) ^ (2 ^ p') = 1 := by
    rw [← mul_pow, LucasLehmer.X.ωb_mul_ω, one_pow]
  have hprod : (LucasLehmer.X.ω : LucasLehmer.X Q) ^ (2 ^ p')
      * ((LucasLehmer.s p' : LucasLehmer.X Q)) = 0 := by
    rw [LucasLehmer.X.closed_form, mul_add, ← pow_add, hsplit, homega, ← mul_pow,
      LucasLehmer.X.ω_mul_ωb, one_pow]
    ring
  have hs0 : ((LucasLehmer.s p' : LucasLehmer.X Q)) = 0 := by
    calc (LucasLehmer.s p' : LucasLehmer.X Q)
        = ((LucasLehmer.X.ωb : LucasLehmer.X Q) ^ (2 ^ p')
            * (LucasLehmer.X.ω : LucasLehmer.X Q) ^ (2 ^ p'))
          * (LucasLehmer.s p' : LucasLehmer.X Q) := by rw [hunit, one_mul]
      _ = (LucasLehmer.X.ωb : LucasLehmer.X Q) ^ (2 ^ p')
          * ((LucasLehmer.X.ω : LucasLehmer.X Q) ^ (2 ^ p')
            * (LucasLehmer.s p' : LucasLehmer.X Q)) := by rw [mul_assoc]
      _ = 0 := by rw [hprod, mul_zero]
  have hfst : ((LucasLehmer.s p' : Int) : ZMod (Q : ℕ)) = 0 := by
    have hc := congrArg Prod.fst hs0
    rwa [LucasLehmer.X.fst_intCast, LucasLehmer.X.zero_fst] at hc
  show LucasLehmer.sZMod (p' + 2) (p' + 2 - 2) = 0
  have hidx : p' + 2 - 2 = p' := by omega
  rw [hidx, LucasLehmer.sZMod_eq_s]
  exact hfst

/-- C2: for every odd prime exponent `p`, `lucas_lehmer_test p` returns
`some true` (the run starts at `s = 4`, applies
`square_and_subtract_two_mod_mp` exactly `p - 2` times, completes without
aborting, and ends with `s = 0`) if and only if `2^p - 1` is prime; and
for every `p < 2` the test returns `some false`. -/
theorem lucas_lehmer_test_correct (p : Nat) (hp : Nat.Prime p) (hp2 : p ≠ 2) :
    (lucas_lehmer_test p = some true ↔ Nat.Prime (2 ^ p - 1)) ∧
      ∀ m, m < 2 → lucas_lehmer_test m = some false := by
  have hp3 : 3 ≤ p := by
    have := hp.two_le
    rcases Nat.lt_or_ge p 3 with h | h
    · interval_cases p
      · exact absurd rfl hp2
    · exact h
  have hoddp : p % 2 = 1 := Nat.odd_iff.mp (hp.odd_of_ne_two hp2)
  have hM7 := mersenne_int_ge_seven p hp3
  have hs0 : ((4 : Nat) : Int) = LucasLehmer.sMod p 0 := by
    show (4 : Int) = 4 % ((2 : Int) ^ p - 1)
    rw [Int.emod_eq_of_lt (by norm_num) (by omega)]
  refine ⟨⟨?_, ?_⟩, ?_⟩
  · intro hrun
    rw [lucas_lehmer_test, if_neg (by omega)] at hrun
    obtain ⟨v, hv, hveq⟩ := Option.map_eq_some'.mp hrun
    have hv0 : v = 0 := by simpa using hveq
    subst hv0
    have hsmod := ll_steps_val p (by omega) (p - 2) 0 4 0 hs0 hv
    have hfin : LucasLehmer.sMod p (p - 2) = 0 := by
      rw [Nat.zero_add] at hsmod
      exact_mod_cast hsmod.symm
    have hres : lucasLehmerResidue p = 0 :=
      (LucasLehmer.residue_eq_zero_iff_sMod_eq_zero p (by omega)).mpr hfin
    have hsuff := lucas_lehmer_sufficiency p (by omega) hres
    simpa [mersenne] using hsuff
  · intro hprime
    have hres : lucasLehmerResidue p = 0 := residue_zero_of_prime p hp3 hoddp hprime
    have hfin : LucasLehmer.sMod p (p - 2) = 0 :=
      (LucasLehmer.residue_eq_zero_iff_sMod_eq_zero p (by omega)).mp hres
    have hge := sMod_ge_two_of_final_zero p hp3 hfin
    obtain ⟨v, hv⟩ := ll_steps_total p (by omega) (p - 2) 0 4 hs0
      (fun j _ hj2 => hge j (by omega))
    have hval := ll_steps_val p (by omega) (p - 2) 0 4 v hs0 hv
    have hv0 : v = 0 := by
      rw [Nat.zero_add, hfin] at hval
      exact_mod_cast hval
    rw [lucas_lehmer_test, if_neg (by omega), hv, hv0]
    rfl
  · intro m hm
    rw [lucas_lehmer_test, if_pos hm]

/-- Witness for `lucas_lehmer_test_correct` at the odd prime `p = 3`:
`M₃ = 7` is prime, so the embedded test answers `some true`. -/
theorem lucas_lehmer_test_correct_witness :
    lucas_lehmer_test 3 = some true :=
  (lucas_lehmer_test_correct 3 (by norm_num) (by decide)).1.mpr (by norm_num)

example : mod_mp 200 7 = 73 := by decide
example : mod_mp 127 7 = 0 := by decide
example : mod_mp 128 7 = 1 := by decide
example : ll_steps 7 1 4 = some 14 := by decide
example : ll_steps 7 2 4 = some 67 := by decide
example : ll_steps 7 3 4 = some 42 := by decide
example : ll_steps 7 4 4 = some 111 := by decide
example : mr_squarings 17 16 3 2 = true := by decide
example : lucas_lehmer_test 11 = some false := by decide
example : lucas_lehmer_test 13 = some true := by decide
example : check_mersenne_candidate 11 CheckLevel.TrialFactoring (fun _ => 2) (fun _ => false)
    = some [⟨true, "Exponent is prime"⟩, ⟨false, "Found small factor: 23"⟩] := by decide
example : is_prime 31 = true := by decide
example : is_prime 15 = false := by decide
example : ll_steps 7 5 4 = some 0 := by decide
example : lucas_lehmer_test 7 = some true := by decide
example : lucas_lehmer_test 2 = some false := by decide
example : square_and_subtract_two_mod_mp 0 3 = none := by decide
example : check_small_factors 11 23 = some 23 := by decide
example : find_small_factor_claimed 11 23 = none := by decide
example : find_small_factor_amended 11 23 = some 23 := by decide
example : check_small_factors 11 1000000 = some 23 := by decide

end PrimalityJones
